import Mathlib

/-!
Verification of the two programs in this repository.

The first part embeds the integer-partition enumerator of
src/lpnudiscrete/2ndlab.py: the recursive generator

  def partitions(n, max_part=None, prefix=()):
      if n == 0:
          yield prefix
          return
      if max_part is None:
          max_part = n
      for x in range(min(max_part, n), 0, -1):
          yield from partitions(n - x, x, prefix + (x,))

together with the exactly-3-addends filter of print_partitions.  The
generator is modelled as a function producing the fully materialised
list of emitted tuples.  Recursion in the source decreases n, which is
not structural, so the Lean function carries an explicit fuel argument
that bounds the recursion depth; partitionsGo_congr shows any fuel of
at least n computes the same list, so instantiating the fuel with n
(partitionsRec, partitions) is the source function itself.  The fuel
also makes the depth bound of the source's termination argument an
explicit, provable statement.

The second part embeds build_matrix and transpose of
src/lpnudiscrete/1stlab.py.  Python dict lookup for
idx = \x7ba: i for i, a in enumerate(A)\x7d is modelled by a left fold in
which a later binding of the same key overwrites an earlier one, and
zip(*M) is modelled by zipStar, again with a fuel argument (the length
of the first row suffices for the matrices the program builds).
-/

/-- Python range(m, 0, -1): the list [m, m-1, ..., 1]. -/
def countdown : Nat → List Nat
  | 0 => []
  | m + 1 => (m + 1) :: countdown m

/-- Body of partitions(n, max_part, prefix) from 2ndlab.py.  The first
argument is fuel bounding the recursion depth; the remaining arguments
are the source's parameters, with max_part=None modelled as none. -/
def partitionsGo : Nat → Nat → Option Nat → List Nat → List (List Nat)
  | _, 0, _, pfx => [pfx]
  | 0, _ + 1, _, _ => []
  | fuel + 1, n + 1, maxPart, pfx =>
    (countdown (min (maxPart.getD (n + 1)) (n + 1))).flatMap fun x =>
      partitionsGo fuel (n + 1 - x) (some x) (pfx ++ [x])

/-- partitions(n, max_part, prefix): the fuel n is exactly the depth
bound of the source's termination argument. -/
def partitionsRec (n : Nat) (maxPart : Option Nat) (pfx : List Nat) : List (List Nat) :=
  partitionsGo n n maxPart pfx

/-- Top-level partitions(n), with Python's defaults max_part=None and
prefix=(). -/
def partitions (n : Nat) : List (List Nat) :=
  partitionsRec n none []

/-- The list [p for p in all_parts if len(p) == 3] from print_partitions. -/
def parts_k3 (n : Nat) : List (List Nat) :=
  (partitions n).filter fun p => p.length = 3

/-- The suffix a call partitions(n, max_part=cap, prefix) appends to its
prefix: a non-increasing list of positive addends summing to n whose
first addend does not exceed cap. -/
def IsDescPartition (n cap : Nat) (l : List Nat) : Prop :=
  l.sum = n ∧ l.Sorted (· ≥ ·) ∧ (∀ a ∈ l, 1 ≤ a) ∧ ∀ a ∈ l.head?, a ≤ cap

/-- Reverse-lexicographic comparison of addend sequences: the first
list is strictly earlier when, at the first position where the two
differ, it holds the larger addend. -/
def revlexGT : List Nat → List Nat → Bool
  | a :: as, b :: bs => decide (b < a) || (decide (a = b) && revlexGT as bs)
  | _, _ => false

/-- Python range(m, 0, -1) for an arbitrary integer bound m: empty as
soon as m is not positive. -/
def countdownInt (m : Int) : List Int :=
  (countdown m.toNat).map Int.ofNat

/-- The body of partitions over unrestricted integer inputs, which is
how the Python function behaves when handed a negative int: same code
as partitionsGo, with fuel again bounding the recursion depth.  When
the target is not positive the loop range is empty, so no recursive
call is made and no fuel is needed. -/
def partitionsIntGo (fuel : Nat) (n : Int) (maxPart : Option Int) (pfx : List Int) :
    List (List Int) :=
  if n = 0 then [pfx]
  else
    match fuel with
    | 0 => []
    | fuel' + 1 =>
      (countdownInt (min (maxPart.getD n) n)).flatMap fun x =>
        partitionsIntGo fuel' (n - x) (some x) (pfx ++ [x])

/-- partitions(n) on an arbitrary integer input. -/
def partitionsInt (n : Int) (maxPart : Option Int) (pfx : List Int) : List (List Int) :=
  partitionsIntGo n.toNat n maxPart pfx

/-- The dict idx = \x7ba: i for i, a in enumerate(A)\x7d of build_matrix,
looked up at key x: a later entry of the comprehension overwrites an
earlier one with the same label, so the fold keeps the last index. -/
def idx (A : List String) (x : String) : Option Nat :=
  A.enum.foldl (fun acc p => if p.2 = x then some p.1 else acc) none

/-- One iteration of the loop of build_matrix: when both components of
the pair are keys of idx, execute M[idx[x]][idx[y]] = 1. -/
def applyPair (A : List String) (M : List (List Nat)) (xy : String × String) :
    List (List Nat) :=
  match idx A xy.1, idx A xy.2 with
  | some i, some j => M.set i ((M.getD i []).set j 1)
  | _, _ => M

/-- build_matrix(A, pairs) from 1stlab.py: start from the n-by-n zero
matrix and process the pairs in order. -/
def build_matrix (A : List String) (pairs : List (String × String)) : List (List Nat) :=
  pairs.foldl (applyPair A) (List.replicate A.length (List.replicate A.length 0))

/-- Entry (i, j) of a matrix given as a list of rows, with default 0. -/
def entry (M : List (List Nat)) (i j : Nat) : Nat :=
  (M.getD i []).getD j 0

/-- Python zip(*M), materialised column by column.  The fuel bounds the
number of emitted columns; the iteration stops after as many steps as
the shortest row is long, so any fuel of at least that many steps is
exact, and transpose passes the length of the first row, which always
suffices. -/
def zipStar : Nat → List (List Nat) → List (List Nat)
  | _, [] => []
  | 0, _ :: _ => []
  | fuel + 1, r :: rs =>
    if (r :: rs).any (fun t => t.isEmpty) then []
    else ((r :: rs).map fun t => t.headD 0) :: zipStar fuel ((r :: rs).map fun t => t.tail)

/-- transpose(M) from 1stlab.py, i.e. [list(row) for row in zip(*M)]
if M else []. -/
def transpose (M : List (List Nat)) : List (List Nat) :=
  zipStar (M.headD []).length M

theorem mem_countdown {m x : Nat} : x ∈ countdown m ↔ 1 ≤ x ∧ x ≤ m := by
  induction m with
  | zero =>
    simp only [countdown, List.not_mem_nil, false_iff]
    omega
  | succ m ih =>
    simp only [countdown, List.mem_cons, ih]
    omega

theorem countdown_pairwise (m : Nat) : (countdown m).Pairwise (fun a b => b < a) := by
  induction m with
  | zero => exact List.Pairwise.nil
  | succ m ih =>
    refine List.Pairwise.cons (fun b hb => ?_) ih
    have := mem_countdown.mp hb
    omega

theorem partitionsGo_zero (fuel : Nat) (c : Option Nat) (pfx : List Nat) :
    partitionsGo fuel 0 c pfx = [pfx] := by
  cases fuel <;> rfl

theorem partitionsGo_succ (fuel n : Nat) (c : Option Nat) (pfx : List Nat) :
    partitionsGo (fuel + 1) (n + 1) c pfx =
      (countdown (min (c.getD (n + 1)) (n + 1))).flatMap fun x =>
        partitionsGo fuel (n + 1 - x) (some x) (pfx ++ [x]) := rfl

theorem partitionsGo_congr : ∀ (fuel fuel' n : Nat) (c : Option Nat) (pfx : List Nat),
    n ≤ fuel → n ≤ fuel' → partitionsGo fuel n c pfx = partitionsGo fuel' n c pfx := by
  intro fuel
  induction fuel with
  | zero =>
    intro fuel' n c pfx h _
    interval_cases n
    rw [partitionsGo_zero, partitionsGo_zero]
  | succ fuel ih =>
    intro fuel' n c pfx h h'
    cases n with
    | zero => rw [partitionsGo_zero, partitionsGo_zero]
    | succ n =>
      cases fuel' with
      | zero => omega
      | succ fuel' =>
        rw [partitionsGo_succ, partitionsGo_succ]
        refine List.flatMap_congr fun x hx => ?_
        have hx1 := (mem_countdown.mp hx).1
        exact ih fuel' (n + 1 - x) (some x) (pfx ++ [x]) (by omega) (by omega)

theorem partitionsRec_succ (n : Nat) (c : Option Nat) (pfx : List Nat) :
    partitionsRec (n + 1) c pfx =
      (countdown (min (c.getD (n + 1)) (n + 1))).flatMap fun x =>
        partitionsRec (n + 1 - x) (some x) (pfx ++ [x]) := by
  rw [partitionsRec, partitionsGo_succ]
  refine List.flatMap_congr fun x hx => ?_
  have hx1 := (mem_countdown.mp hx).1
  exact partitionsGo_congr n (n + 1 - x) (n + 1 - x) (some x) (pfx ++ [x]) (by omega) le_rfl

theorem partitionsRec_none (n : Nat) (pfx : List Nat) :
    partitionsRec n none pfx = partitionsRec n (some n) pfx := by
  cases n with
  | zero => rfl
  | succ n => rw [partitionsRec_succ, partitionsRec_succ]; rfl

theorem eq_nil_of_sum_eq_zero {l : List Nat} (hsum : l.sum = 0)
    (hpos : ∀ a ∈ l, 1 ≤ a) : l = [] := by
  cases l with
  | nil => rfl
  | cons a t =>
    have ha := hpos a (List.mem_cons_self a t)
    simp only [List.sum_cons] at hsum
    omega

theorem mem_partitionsRec (n : Nat) : ∀ (cap : Nat) (pfx P : List Nat),
    P ∈ partitionsRec n (some cap) pfx ↔ ∃ l, P = pfx ++ l ∧ IsDescPartition n cap l := by
  induction n using Nat.strong_induction_on with
  | _ n ih =>
    intro cap pfx P
    cases n with
    | zero =>
      constructor
      · intro hP
        refine ⟨[], ?_, rfl, List.sorted_nil, by simp, by simp⟩
        simpa [partitionsRec, partitionsGo] using hP
      · rintro ⟨l, rfl, hsum, -, hpos, -⟩
        have hl : l = [] := eq_nil_of_sum_eq_zero hsum hpos
        simp [partitionsRec, partitionsGo, hl]
    | succ n =>
      rw [partitionsRec_succ]
      simp only [List.mem_flatMap, Option.getD_some]
      constructor
      · rintro ⟨x, hx, hP⟩
        obtain ⟨hx1, hx2⟩ := mem_countdown.mp hx
        obtain ⟨l', rfl, hsum, hsorted, hpos, hhead⟩ :=
          (ih (n + 1 - x) (by omega) x (pfx ++ [x]) P).mp hP
        refine ⟨x :: l', by simp, ?_, ?_, ?_, ?_⟩
        · simp only [List.sum_cons]
          omega
        · refine List.sorted_cons.mpr ⟨fun b hb => ?_, hsorted⟩
          cases l' with
          | nil => cases hb
          | cons h t =>
            have hhx : h ≤ x := hhead h rfl
            rcases List.mem_cons.mp hb with rfl | hbt
            · exact hhx
            · exact le_trans (List.rel_of_sorted_cons hsorted b hbt) hhx
        · intro a ha
          rcases List.mem_cons.mp ha with rfl | hat
          · exact hx1
          · exact hpos a hat
        · intro a ha
          simp only [List.head?_cons, Option.mem_def, Option.some.injEq] at ha
          omega
      · rintro ⟨l, rfl, hsum, hsorted, hpos, hhead⟩
        cases l with
        | nil => simp at hsum
        | cons a t =>
          have ha1 : 1 ≤ a := hpos a (List.mem_cons_self a t)
          have hacap : a ≤ cap := hhead a rfl
          simp only [List.sum_cons] at hsum
          refine ⟨a, mem_countdown.mpr ⟨ha1, by omega⟩, ?_⟩
          refine (ih (n + 1 - a) (by omega) a (pfx ++ [a]) (pfx ++ a :: t)).mpr ?_
          refine ⟨t, by simp, by omega, hsorted.of_cons, fun b hb => hpos b (List.mem_cons_of_mem a hb), ?_⟩
          intro b hb
          exact List.rel_of_sorted_cons hsorted b (List.mem_of_mem_head? hb)

/-- Membership in the top-level enumeration: exactly the non-increasing
lists of positive addends summing to n. -/
theorem mem_partitions {n : Nat} {P : List Nat} :
    P ∈ partitions n ↔ P.sum = n ∧ P.Sorted (· ≥ ·) ∧ ∀ a ∈ P, 1 ≤ a := by
  rw [partitions, partitionsRec_none, mem_partitionsRec]
  constructor
  · rintro ⟨l, rfl, hsum, hsorted, hpos, -⟩
    simpa using ⟨hsum, hsorted, hpos⟩
  · rintro ⟨hsum, hsorted, hpos⟩
    refine ⟨P, by simp, hsum, hsorted, hpos, fun a ha => ?_⟩
    have haP : a ∈ P := List.mem_of_mem_head? ha
    have := List.single_le_sum (l := P) (fun x _ => Nat.zero_le x) a haP
    omega

theorem revlexGT_self : ∀ l : List Nat, revlexGT l l = false := by
  intro l
  induction l with
  | nil => rfl
  | cons a t ih => simp [revlexGT, ih]

theorem ne_of_revlexGT {P Q : List Nat} (h : revlexGT P Q = true) : P ≠ Q := by
  intro hPQ
  rw [hPQ, revlexGT_self] at h
  cases h

theorem revlexGT_append : ∀ (w a b : List Nat), revlexGT (w ++ a) (w ++ b) = revlexGT a b := by
  intro w a b
  induction w with
  | nil => rfl
  | cons c w ih => simp [revlexGT, ih]

theorem revlexGT_cons_lt {a b : Nat} (u v : List Nat) (h : b < a) :
    revlexGT (a :: u) (b :: v) = true := by
  simp [revlexGT, h]

theorem partitionsRec_pairwise (n : Nat) : ∀ (cap : Nat) (pfx : List Nat),
    (partitionsRec n (some cap) pfx).Pairwise fun P Q => revlexGT P Q = true := by
  induction n using Nat.strong_induction_on with
  | _ n ih =>
    intro cap pfx
    cases n with
    | zero => simp [partitionsRec, partitionsGo]
    | succ n =>
      rw [partitionsRec_succ, List.flatMap_def, List.pairwise_flatten]
      constructor
      · intro l hl
        obtain ⟨x, hx, rfl⟩ := List.mem_map.mp hl
        have hx1 := (mem_countdown.mp hx).1
        exact ih (n + 1 - x) (by omega) x (pfx ++ [x])
      · rw [List.pairwise_map]
        refine (countdown_pairwise _).imp_of_mem ?_
        intro x₁ x₂ hx₁ hx₂ hlt P hP Q hQ
        obtain ⟨l₁, rfl, -⟩ := (mem_partitionsRec _ _ _ _).mp hP
        obtain ⟨l₂, rfl, -⟩ := (mem_partitionsRec _ _ _ _).mp hQ
        have h₁ : (pfx ++ [x₁]) ++ l₁ = pfx ++ x₁ :: l₁ := by simp
        have h₂ : (pfx ++ [x₂]) ++ l₂ = pfx ++ x₂ :: l₂ := by simp
        rw [h₁, h₂, revlexGT_append]
        exact revlexGT_cons_lt l₁ l₂ hlt

theorem partitions_pairwise (n : Nat) :
    (partitions n).Pairwise fun P Q => revlexGT P Q = true := by
  rw [partitions, partitionsRec_none]
  exact partitionsRec_pairwise n n []

theorem partitions_nodup (n : Nat) : (partitions n).Nodup :=
  (partitions_pairwise n).imp fun h => ne_of_revlexGT h

theorem length_le_sum : ∀ l : List Nat, (∀ a ∈ l, 1 ≤ a) → l.length ≤ l.sum := by
  intro l
  induction l with
  | nil => simp
  | cons a t ih =>
    intro h
    have ha := h a (List.mem_cons_self a t)
    have ht := ih fun b hb => h b (List.mem_cons_of_mem a hb)
    simp only [List.length_cons, List.sum_cons]
    omega

/-- C1: every sequence emitted by partitions(n) sums to n. -/
theorem partitions_sum_eq : ∀ (n : Nat), ∀ P ∈ partitions n, P.sum = n :=
  fun _ _ hP => (mem_partitions.mp hP).1

theorem partitions_sum_eq_witness : ([3, 1] : List Nat).sum = 4 :=
  partitions_sum_eq 4 [3, 1] (by decide)

/-- C2: every sequence emitted by partitions(n) is non-increasing (each
addend is at least the following one) and all its addends are at least 1. -/
theorem partitions_nonincreasing_pos : ∀ (n : Nat), ∀ P ∈ partitions n,
    List.Chain' (· ≥ ·) P ∧ ∀ a ∈ P, 1 ≤ a :=
  fun _ _ hP => ⟨(mem_partitions.mp hP).2.1.chain', (mem_partitions.mp hP).2.2⟩

theorem partitions_nonincreasing_pos_witness :
    List.Chain' (· ≥ ·) ([2, 1, 1] : List Nat) ∧ ∀ a ∈ ([2, 1, 1] : List Nat), 1 ≤ a :=
  partitions_nonincreasing_pos 4 [2, 1, 1] (by decide)

/-- C4: the emitted sequence is strictly decreasing in the
reverse-lexicographic order on addend sequences, and partitions(4) is
exactly (4,), (3,1), (2,2), (2,1,1), (1,1,1,1) in that order. -/
theorem partitions_order_revlex :
    (∀ n : Nat, (partitions n).Pairwise fun P Q => revlexGT P Q = true) ∧
      partitions 4 = [[4], [3, 1], [2, 2], [2, 1, 1], [1, 1, 1, 1]] :=
  ⟨partitions_pairwise, by decide⟩

/-- C5: for every n the emitted sequence contains no duplicate
partitions. -/
theorem partitions_no_duplicates : ∀ n : Nat, (partitions n).Nodup :=
  partitions_nodup

/-- C6 as claimed is false at n = 4: the partition (2,1,1) of 4 has
exactly 3 addends, so the filtered subsequence is [(2,1,1)] with count
1, not the empty sequence with count 0. -/
theorem parts_k3_at_4_counterexample :
    parts_k3 4 = [[2, 1, 1]] ∧ parts_k3 4 ≠ [] ∧ (parts_k3 4).length = 1 := by
  refine ⟨by decide, by decide, by decide⟩

/-- C6 (amended): the exactly-3-addends filter keeps a subsequence of
the enumeration order; at n = 6 it is (4,1,1), (3,2,1), (2,2,2) with
count 3, at n = 3 it is (1,1,1) with count 1, and at n = 4 it is
(2,1,1) with count 1. -/
theorem parts_k3_spec :
    (∀ n : Nat, (parts_k3 n).Sublist (partitions n)) ∧
      parts_k3 6 = [[4, 1, 1], [3, 2, 1], [2, 2, 2]] ∧ (parts_k3 6).length = 3 ∧
      parts_k3 3 = [[1, 1, 1]] ∧ (parts_k3 3).length = 1 ∧
      parts_k3 4 = [[2, 1, 1]] ∧ (parts_k3 4).length = 1 :=
  ⟨fun _ => List.filter_sublist _, by decide, by decide, by decide, by decide,
    by decide, by decide⟩

/-- C7: the enumeration terminates with recursion depth bounded by n:
fuel n already computes the fixpoint (any larger fuel gives the same
list), every tried addend x is at least 1 and strictly decreases the
remaining target, and every emitted partition has at most n addends. -/
theorem partitions_termination_depth :
    (∀ (fuel n : Nat) (c : Option Nat) (pfx : List Nat), n ≤ fuel →
        partitionsGo fuel n c pfx = partitionsRec n c pfx) ∧
      (∀ n c x : Nat, x ∈ countdown (min c n) → 1 ≤ x ∧ n - x < n) ∧
      ∀ n : Nat, ∀ P ∈ partitions n, P.length ≤ n := by
  refine ⟨fun fuel n c pfx h => partitionsGo_congr fuel n n c pfx h le_rfl, ?_, ?_⟩
  · intro n c x hx
    have := mem_countdown.mp hx
    omega
  · intro n P hP
    obtain ⟨hsum, -, hpos⟩ := mem_partitions.mp hP
    have := length_le_sum P hpos
    omega

theorem partitions_termination_depth_witness :
    partitionsGo 9 4 none [] = partitionsRec 4 none [] ∧
      (1 ≤ 2 ∧ 4 - 2 < 4) ∧ ([2, 2] : List Nat).length ≤ 4 :=
  ⟨partitions_termination_depth.1 9 4 none [] (by decide),
    partitions_termination_depth.2.1 4 4 2 (by decide),
    partitions_termination_depth.2.2 4 [2, 2] (by decide)⟩

theorem partitions_length_eq_card (n : Nat) :
    (partitions n).length = Fintype.card (Nat.Partition n) := by
  classical
  rw [← List.toFinset_card_of_nodup (partitions_nodup n), ← Finset.card_univ]
  have key : ∀ l, l ∈ (partitions n).toFinset →
      (l : Multiset Nat).sum = n ∧ ∀ i ∈ (l : Multiset Nat), 0 < i := by
    intro l hl
    obtain ⟨hsum, -, hpos⟩ := mem_partitions.mp (List.mem_toFinset.mp hl)
    refine ⟨by rw [Multiset.sum_coe]; exact hsum, fun i hi => ?_⟩
    exact hpos i (Multiset.mem_coe.mp hi)
  refine Finset.card_bij
    (fun l hl => ⟨(l : Multiset Nat), fun {i} hi => (key l hl).2 i hi, (key l hl).1⟩)
    (fun _ _ => Finset.mem_univ _) ?_ ?_
  · intro l₁ h₁ l₂ h₂ heq
    have hperm : l₁.Perm l₂ := Multiset.coe_eq_coe.mp (congrArg Nat.Partition.parts heq)
    have hs₁ := (mem_partitions.mp (List.mem_toFinset.mp h₁)).2.1
    have hs₂ := (mem_partitions.mp (List.mem_toFinset.mp h₂)).2.1
    exact List.eq_of_perm_of_sorted hperm hs₁ hs₂
  · intro p _
    have hsort : (Multiset.sort (· ≥ ·) p.parts).Sorted (· ≥ ·) :=
      Multiset.sort_sorted _ _
    have hcoe : ((Multiset.sort (· ≥ ·) p.parts : List Nat) : Multiset Nat) = p.parts :=
      Multiset.sort_eq _ _
    have hpos : ∀ a ∈ Multiset.sort (· ≥ ·) p.parts, 1 ≤ a := fun a ha =>
      p.parts_pos (by rw [← hcoe]; exact Multiset.mem_coe.mpr ha)
    have hsum : (Multiset.sort (· ≥ ·) p.parts).sum = n := by
      rw [← Multiset.sum_coe, hcoe]; exact p.parts_sum
    refine ⟨Multiset.sort (· ≥ ·) p.parts,
      List.mem_toFinset.mpr (mem_partitions.mpr ⟨hsum, hsort, hpos⟩), ?_⟩
    exact Nat.Partition.ext hcoe

/-- C3: the number of emitted partitions is the partition-counting
function p(n) (the cardinality of Mathlib's type of partitions of n);
in particular for n = 0..7 it is 1, 1, 2, 3, 5, 7, 11, 15. -/
theorem partitions_count_correct :
    (∀ n : Nat, (partitions n).length = Fintype.card (Nat.Partition n)) ∧
      (partitions 0).length = 1 ∧ (partitions 1).length = 1 ∧
      (partitions 2).length = 2 ∧ (partitions 3).length = 3 ∧
      (partitions 4).length = 5 ∧ (partitions 5).length = 7 ∧
      (partitions 6).length = 11 ∧ (partitions 7).length = 15 :=
  ⟨partitions_length_eq_card, by decide, by decide, by decide, by decide,
    by decide, by decide, by decide, by decide⟩

theorem partitionsIntGo_neg (fuel : Nat) (n : Int) (mp : Option Int) (pfx : List Int)
    (h : n < 0) : partitionsIntGo fuel n mp pfx = [] := by
  have hne : ¬n = 0 := by omega
  cases fuel with
  | zero => simp [partitionsIntGo, hne]
  | succ fuel' =>
    have hmin : (min (mp.getD n) n).toNat = 0 := by
      have := min_le_right (mp.getD n) n
      omega
    simp [partitionsIntGo, hne, countdownInt, hmin, countdown]

/-- C8 as claimed is false: at the negative input -1 the enumerator
does not fail with any error condition; it returns normally, producing
the empty list of partitions. -/
theorem partitionsInt_no_rejection : partitionsInt (-1) none [] = [] := by
  decide

/-- C8 (amended): the enumerator has no rejection path.  On every
negative integer input it returns normally with the empty sequence of
partitions (at any fuel, i.e. regardless of recursion depth allowed),
and on 0 it emits exactly the single empty partition. -/
theorem partitionsInt_negative_empty :
    (∀ (fuel : Nat) (n : Int) (mp : Option Int) (pfx : List Int), n < 0 →
        partitionsIntGo fuel n mp pfx = []) ∧
      (∀ n : Int, n < 0 → partitionsInt n none [] = []) ∧
      partitionsInt 0 none [] = [[]] :=
  ⟨fun fuel n mp pfx h => partitionsIntGo_neg fuel n mp pfx h,
    fun n h => partitionsIntGo_neg n.toNat n none [] h, rfl⟩

theorem partitionsInt_negative_empty_witness :
    partitionsIntGo 5 (-3) none [] = [] ∧ partitionsInt (-2) none [] = [] :=
  ⟨partitionsInt_negative_empty.1 5 (-3) none [] (by decide),
    partitionsInt_negative_empty.2.1 (-2) (by decide)⟩

theorem foldl_idx_acc {x : String} : ∀ (l : List (Nat × String)) (acc : Option Nat),
    (∀ p ∈ l, p.2 ≠ x) →
      l.foldl (fun acc p => if p.2 = x then some p.1 else acc) acc = acc := by
  intro l
  induction l with
  | nil => intro acc _; rfl
  | cons p t ih =>
    intro acc h
    have hp : p.2 ≠ x := h p (List.mem_cons_self p t)
    simp only [List.foldl_cons, if_neg hp]
    exact ih acc fun q hq => h q (List.mem_cons_of_mem p hq)

theorem foldl_idx_mem {x : String} : ∀ (l : List (Nat × String)) (acc : Option Nat) (i : Nat),
    l.foldl (fun acc p => if p.2 = x then some p.1 else acc) acc = some i →
      (i, x) ∈ l ∨ acc = some i := by
  intro l
  induction l with
  | nil => intro acc i h; exact Or.inr h
  | cons p t ih =>
    intro acc i h
    simp only [List.foldl_cons] at h
    rcases ih _ i h with hmem | hacc
    · exact Or.inl (List.mem_cons_of_mem p hmem)
    · by_cases hp : p.2 = x
      · rw [if_pos hp] at hacc
        have : p = (i, x) := by
          cases p
          simp only [Option.some.injEq] at hacc
          simp_all
        exact Or.inl (this ▸ List.mem_cons_self p t)
      · rw [if_neg hp] at hacc
        exact Or.inr hacc

theorem foldl_idx_const {x : String} {i : Nat} : ∀ l : List (Nat × String),
    (∀ p ∈ l, p.2 = x → p = (i, x)) →
      l.foldl (fun acc p => if p.2 = x then some p.1 else acc) (some i) = some i := by
  intro l
  induction l with
  | nil => intro _; rfl
  | cons p t ih =>
    intro h
    simp only [List.foldl_cons]
    by_cases hp : p.2 = x
    · have hpi : p = (i, x) := h p (List.mem_cons_self p t) hp
      rw [if_pos hp, hpi]
      exact ih fun q hq hq2 => h q (List.mem_cons_of_mem p hq) hq2
    · rw [if_neg hp]
      exact ih fun q hq hq2 => h q (List.mem_cons_of_mem p hq) hq2

theorem foldl_idx_found {x : String} {i : Nat} : ∀ (l : List (Nat × String)) (acc : Option Nat),
    (i, x) ∈ l → (∀ p ∈ l, p.2 = x → p = (i, x)) →
      l.foldl (fun acc p => if p.2 = x then some p.1 else acc) acc = some i := by
  intro l
  induction l with
  | nil => intro acc h _; cases h
  | cons p t ih =>
    intro acc hmem h
    simp only [List.foldl_cons]
    by_cases hp : p.2 = x
    · have hpi : p = (i, x) := h p (List.mem_cons_self p t) hp
      rw [if_pos hp, hpi]
      exact foldl_idx_const t fun q hq hq2 => h q (List.mem_cons_of_mem p hq) hq2
    · rw [if_neg hp]
      rcases List.mem_cons.mp hmem with heq | hmemt
      · exact absurd (by rw [← heq]) hp
      · exact ih acc hmemt fun q hq hq2 => h q (List.mem_cons_of_mem p hq) hq2

theorem mem_enum_iff {A : List String} {i : Nat} {x : String} :
    (i, x) ∈ A.enum ↔ ∃ h : i < A.length, A[i] = x := by
  constructor
  · intro h
    obtain ⟨k, hk, hEq⟩ := List.mem_iff_getElem.mp h
    rw [List.getElem_enum] at hEq
    obtain ⟨hk1, hk2⟩ := Prod.mk.injEq .. ▸ hEq
    have hk' : k < A.length := List.enum_length ▸ hk
    subst hk1
    exact ⟨hk', hk2⟩
  · rintro ⟨hi, hx⟩
    have hmem := List.getElem_mem (l := A.enum) (n := i)
      (by rw [List.enum_length]; exact hi)
    rw [List.getElem_enum, hx] at hmem
    exact hmem

theorem idx_eq_some {A : List String} {x : String} {i : Nat} (h : idx A x = some i) :
    ∃ h : i < A.length, A[i] = x := by
  rcases foldl_idx_mem A.enum none i h with hmem | hacc
  · exact mem_enum_iff.mp hmem
  · cases hacc

theorem idx_of_getElem {A : List String} (hA : A.Nodup) {x : String} {i : Nat}
    (hi : i < A.length) (hx : A[i] = x) : idx A x = some i := by
  refine foldl_idx_found A.enum none (mem_enum_iff.mpr ⟨hi, hx⟩) ?_
  rintro ⟨j, y⟩ hp hp2
  obtain ⟨hj, hy⟩ := mem_enum_iff.mp hp
  have hji : j = i := by
    refine (@List.Nodup.getElem_inj_iff _ A hA j hj i hi).mp ?_
    rw [hy, hx]
    exact hp2
  simp [hji, ← hp2]

theorem idx_ne_none_of_mem {A : List String} (hA : A.Nodup) {x : String} (h : x ∈ A) :
    idx A x ≠ none := by
  obtain ⟨i, hi, hx⟩ := List.mem_iff_getElem.mp h
  rw [idx_of_getElem hA hi hx]
  exact Option.some_ne_none i

theorem entry_eq (M : List (List Nat)) (i j : Nat) :
    entry M i j = (M.getD i []).getD j 0 := rfl

theorem applyPair_none_left (A : List String) (M : List (List Nat)) (xy : String × String)
    (h1 : idx A xy.1 = none) : applyPair A M xy = M := by
  cases h2 : idx A xy.2 <;> simp only [applyPair, h1, h2]

theorem applyPair_none_right (A : List String) (M : List (List Nat)) (xy : String × String)
    (h2 : idx A xy.2 = none) : applyPair A M xy = M := by
  cases h1 : idx A xy.1 <;> simp only [applyPair, h1, h2]

theorem applyPair_some (A : List String) (M : List (List Nat)) (xy : String × String)
    {i₀ j₀ : Nat} (h1 : idx A xy.1 = some i₀) (h2 : idx A xy.2 = some j₀) :
    applyPair A M xy = M.set i₀ ((M.getD i₀ []).set j₀ 1) := by
  simp only [applyPair, h1, h2]

theorem applyPair_shape (A : List String) (M : List (List Nat)) (xy : String × String)
    (hlen : M.length = A.length) (hrows : ∀ r ∈ M, r.length = A.length) :
    (applyPair A M xy).length = A.length ∧ ∀ r ∈ applyPair A M xy, r.length = A.length := by
  cases h1 : idx A xy.1 with
  | none => rw [applyPair_none_left A M xy h1]; exact ⟨hlen, hrows⟩
  | some i₀ =>
    cases h2 : idx A xy.2 with
    | none => rw [applyPair_none_right A M xy h2]; exact ⟨hlen, hrows⟩
    | some j₀ =>
      obtain ⟨hi₀, -⟩ := idx_eq_some h1
      have hi₀M : i₀ < M.length := by omega
      rw [applyPair_some A M xy h1 h2]
      refine ⟨by rw [List.length_set]; exact hlen, ?_⟩
      intro r hr
      rcases List.mem_or_eq_of_mem_set hr with hrM | hrEq
      · exact hrows r hrM
      · rw [hrEq, List.length_set, List.getD_eq_getElem _ _ hi₀M]
        exact hrows _ (List.getElem_mem hi₀M)

theorem applyPair_entry (A : List String) (hA : A.Nodup) (M : List (List Nat))
    (xy : String × String) (hlen : M.length = A.length)
    (hrows : ∀ r ∈ M, r.length = A.length) {i j : Nat}
    (hi : i < A.length) (hj : j < A.length) :
    entry (applyPair A M xy) i j = if xy = (A[i], A[j]) then 1 else entry M i j := by
  have hiM : i < M.length := by omega
  cases h1 : idx A xy.1 with
  | none =>
    have hnot : xy ≠ (A[i], A[j]) := by
      intro hEq
      exact idx_ne_none_of_mem hA (by rw [hEq]; exact List.getElem_mem hi) h1
    rw [applyPair_none_left A M xy h1, if_neg hnot]
  | some i₀ =>
    cases h2 : idx A xy.2 with
    | none =>
      have hnot : xy ≠ (A[i], A[j]) := by
        intro hEq
        refine idx_ne_none_of_mem hA ?_ h2
        rw [hEq]
        exact List.getElem_mem hj
      rw [applyPair_none_right A M xy h2, if_neg hnot]
    | some j₀ =>
      obtain ⟨hi₀, hx1⟩ := idx_eq_some h1
      obtain ⟨hj₀, hx2⟩ := idx_eq_some h2
      have hi₀M : i₀ < M.length := by omega
      have hrowlen : (M.getD i₀ []).length = A.length := by
        rw [List.getD_eq_getElem _ _ hi₀M]
        exact hrows _ (List.getElem_mem hi₀M)
      rw [applyPair_some A M xy h1 h2, entry_eq]
      have hsetlen : i < (M.set i₀ ((M.getD i₀ []).set j₀ 1)).length := by
        rw [List.length_set]; exact hiM
      rw [List.getD_eq_getElem _ _ hsetlen, List.getElem_set]
      by_cases hii : i₀ = i
      · subst hii
        have hjlen : j < ((M.getD i₀ []).set j₀ 1).length := by
          rw [List.length_set]; omega
        rw [if_pos rfl, List.getD_eq_getElem _ _ hjlen, List.getElem_set]
        by_cases hjj : j₀ = j
        · subst hjj
          have hcond : xy = (A[i₀], A[j₀]) := by
            cases xy
            simp only [Prod.mk.injEq]
            exact ⟨hx1.symm, hx2.symm⟩
          rw [if_pos rfl, if_pos hcond]
        · have hcond : xy ≠ (A[i₀], A[j]) := by
            intro hEq
            cases xy
            simp only [Prod.mk.injEq] at hEq
            refine hjj ((@List.Nodup.getElem_inj_iff _ A hA j₀ hj₀ j hj).mp ?_)
            rw [hx2, hEq.2]
          rw [if_neg hjj, if_neg hcond, entry_eq,
            List.getD_eq_getElem _ _ (show j < (M.getD i₀ []).length by omega)]
      · have hcond : xy ≠ (A[i], A[j]) := by
          intro hEq
          cases xy
          simp only [Prod.mk.injEq] at hEq
          refine hii ((@List.Nodup.getElem_inj_iff _ A hA i₀ hi₀ i hi).mp ?_)
          rw [hx1, hEq.1]
        rw [if_neg hii, if_neg hcond, entry_eq, List.getD_eq_getElem _ _ hiM]

theorem foldl_applyPair_shape (A : List String) : ∀ (ps : List (String × String))
    (M : List (List Nat)), M.length = A.length → (∀ r ∈ M, r.length = A.length) →
      (ps.foldl (applyPair A) M).length = A.length ∧
        ∀ r ∈ ps.foldl (applyPair A) M, r.length = A.length := by
  intro ps
  induction ps with
  | nil => intro M hlen hrows; exact ⟨hlen, hrows⟩
  | cons p ps ih =>
    intro M hlen hrows
    obtain ⟨hlen', hrows'⟩ := applyPair_shape A M p hlen hrows
    exact ih (applyPair A M p) hlen' hrows'

theorem foldl_applyPair_entry (A : List String) (hA : A.Nodup) :
    ∀ (ps : List (String × String)) (M : List (List Nat)),
      M.length = A.length → (∀ r ∈ M, r.length = A.length) →
      ∀ {i j : Nat} (hi : i < A.length) (hj : j < A.length),
        entry (ps.foldl (applyPair A) M) i j =
          if (A[i], A[j]) ∈ ps then 1 else entry M i j := by
  intro ps
  induction ps with
  | nil =>
    intro M _ _ i j hi hj
    simp
  | cons p ps ih =>
    intro M hlen hrows i j hi hj
    obtain ⟨hlen', hrows'⟩ := applyPair_shape A M p hlen hrows
    rw [List.foldl_cons, ih (applyPair A M p) hlen' hrows' hi hj,
      applyPair_entry A hA M p hlen hrows hi hj]
    by_cases hps : (A[i], A[j]) ∈ ps
    · rw [if_pos hps, if_pos (List.mem_cons_of_mem p hps)]
    · rw [if_neg hps]
      by_cases hp : p = (A[i], A[j])
      · rw [if_pos hp, if_pos (List.mem_cons.mpr (Or.inl hp.symm))]
      · rw [if_neg hp, if_neg ?_]
        intro hmem
        rcases List.mem_cons.mp hmem with hEq | hps'
        · exact hp hEq.symm
        · exact hps hps'

theorem build_matrix_shape (A : List String) (pairs : List (String × String)) :
    (build_matrix A pairs).length = A.length ∧
      ∀ r ∈ build_matrix A pairs, r.length = A.length := by
  refine foldl_applyPair_shape A pairs _ (List.length_replicate _ _) ?_
  intro r hr
  rw [List.eq_of_mem_replicate hr]
  exact List.length_replicate _ _

theorem build_matrix_entry (A : List String) (hA : A.Nodup)
    (pairs : List (String × String)) {i j : Nat} (hi : i < A.length) (hj : j < A.length) :
    entry (build_matrix A pairs) i j = if (A[i], A[j]) ∈ pairs then 1 else 0 := by
  rw [build_matrix, foldl_applyPair_entry A hA pairs _ (List.length_replicate _ _) ?_ hi hj]
  · have hrow : (List.replicate A.length (List.replicate A.length 0)).getD i []
        = List.replicate A.length 0 := by
      rw [List.getD_eq_getElem _ _ (by rw [List.length_replicate]; exact hi),
        List.getElem_replicate]
    have hzero :
        entry (List.replicate A.length (List.replicate A.length 0)) i j = 0 := by
      rw [entry_eq, hrow,
        List.getD_eq_getElem _ _ (by rw [List.length_replicate]; exact hj),
        List.getElem_replicate]
    rw [hzero]
  · intro r hr
    rw [List.eq_of_mem_replicate hr]
    exact List.length_replicate _ _

/-- C9: for a duplicate-free label list A, build_matrix(A, pairs) is an
A-by-A 0/1 matrix whose (i, j) entry is 1 exactly when the pair
(A[i], A[j]) occurs in pairs; pairs mentioning a label outside A leave
the matrix untouched. -/
theorem build_matrix_spec : ∀ (A : List String) (pairs : List (String × String)), A.Nodup →
    (build_matrix A pairs).length = A.length ∧
      (∀ row ∈ build_matrix A pairs, row.length = A.length) ∧
      (∀ row ∈ build_matrix A pairs, ∀ e ∈ row, e = 0 ∨ e = 1) ∧
      ∀ (i j : Nat) (hi : i < A.length) (hj : j < A.length),
        (entry (build_matrix A pairs) i j = 1 ↔ (A[i], A[j]) ∈ pairs) := by
  intro A pairs hA
  obtain ⟨hlen, hrows⟩ := build_matrix_shape A pairs
  refine ⟨hlen, hrows, ?_, ?_⟩
  · intro row hrow e he
    obtain ⟨i, hi, hrowEq⟩ := List.mem_iff_getElem.mp hrow
    obtain ⟨j, hj, heEq⟩ := List.mem_iff_getElem.mp he
    have hiA : i < A.length := by omega
    have hjA : j < A.length := by
      have := hrows row hrow
      omega
    have : e = entry (build_matrix A pairs) i j := by
      rw [entry_eq, List.getD_eq_getElem _ _ hi, hrowEq,
        List.getD_eq_getElem _ _ hj, heEq]
    rw [this, build_matrix_entry A hA pairs hiA hjA]
    by_cases hmem : (A[i], A[j]) ∈ pairs
    · rw [if_pos hmem]; exact Or.inr rfl
    · rw [if_neg hmem]; exact Or.inl rfl
  · intro i j hi hj
    rw [build_matrix_entry A hA pairs hi hj]
    by_cases hmem : (A[i], A[j]) ∈ pairs
    · simp [hmem]
    · simp [hmem]

theorem build_matrix_spec_witness :
    entry (build_matrix ["a", "b"] [("a", "b")]) 0 1 = 1 ↔
      ((["a", "b"] : List String)[0], (["a", "b"] : List String)[1]) ∈ [("a", "b")] :=
  (build_matrix_spec ["a", "b"] [("a", "b")] (by decide)).2.2.2 0 1 (by decide) (by decide)

theorem headD_eq_getD_zero (r : List Nat) : r.headD 0 = r.getD 0 0 := by
  cases r <;> rfl

theorem tail_getD (r : List Nat) (j : Nat) : r.tail.getD j 0 = r.getD (j + 1) 0 := by
  cases r <;> rfl

theorem zipStar_uniform : ∀ (n : Nat) (M : List (List Nat)) (fuel : Nat),
    M ≠ [] → (∀ r ∈ M, r.length = n) → n ≤ fuel →
      zipStar fuel M = (List.range n).map fun j => M.map fun r => r.getD j 0 := by
  intro n
  induction n with
  | zero =>
    intro M fuel hM hrows _
    obtain ⟨r, rs, rfl⟩ := List.exists_cons_of_ne_nil hM
    have hr : r.isEmpty = true :=
      List.isEmpty_iff.mpr
        (List.eq_nil_of_length_eq_zero (hrows r (List.mem_cons_self r rs)))
    cases fuel with
    | zero => rfl
    | succ fuel =>
      have hany : ((r :: rs).any fun t => t.isEmpty) = true :=
        List.any_eq_true.mpr ⟨r, List.mem_cons_self r rs, hr⟩
      simp [zipStar, hany]
  | succ n ih =>
    intro M fuel hM hrows hfuel
    obtain ⟨r, rs, rfl⟩ := List.exists_cons_of_ne_nil hM
    cases fuel with
    | zero => omega
    | succ fuel =>
      have hany : ((r :: rs).any fun t => t.isEmpty) = false := by
        rw [List.any_eq_false]
        intro t ht hEmpty
        have hlen := hrows t ht
        rw [List.isEmpty_iff.mp hEmpty] at hlen
        simp at hlen
      have hstep : zipStar (fuel + 1) (r :: rs) =
          if ((r :: rs).any fun t => t.isEmpty) then []
          else ((r :: rs).map fun t => t.headD 0) ::
            zipStar fuel ((r :: rs).map fun t => t.tail) := rfl
      rw [hstep, if_neg (by simp [hany])]
      have htails : ∀ t ∈ (r :: rs).map (fun t => t.tail), t.length = n := by
        intro t ht
        obtain ⟨s, hs, rfl⟩ := List.mem_map.mp ht
        rw [List.length_tail, hrows s hs]
        omega
      have hne : (r :: rs).map (fun t => t.tail) ≠ [] := by simp
      rw [ih _ fuel hne htails (by omega), List.range_succ_eq_map]
      conv_rhs => rw [List.map_cons, List.map_map]
      refine congrArg₂ List.cons ?_ ?_
      · exact List.map_congr_left fun t _ => headD_eq_getD_zero t
      · refine List.map_congr_left fun j _ => ?_
        rw [List.map_map]
        exact List.map_congr_left fun t _ => tail_getD t j

theorem transpose_uniform (M : List (List Nat)) (n : Nat) (hM : M ≠ [])
    (hrows : ∀ r ∈ M, r.length = n) :
    transpose M = (List.range n).map fun j => M.map fun r => r.getD j 0 := by
  have hhead : (M.headD []).length = n := by
    obtain ⟨r, rs, rfl⟩ := List.exists_cons_of_ne_nil hM
    exact hrows r (List.mem_cons_self r rs)
  rw [transpose, hhead]
  exact zipStar_uniform n M n hM hrows le_rfl

theorem mem_map_swap {a b : String} {l : List (String × String)} :
    (a, b) ∈ l.map (fun p => (p.2, p.1)) ↔ (b, a) ∈ l := by
  constructor
  · intro h
    obtain ⟨⟨u, v⟩, hq, hEq⟩ := List.mem_map.mp h
    simp only [Prod.mk.injEq] at hEq
    obtain ⟨h1, h2⟩ := hEq
    subst h1
    subst h2
    exact hq
  · intro h
    exact List.mem_map.mpr ⟨(b, a), h, rfl⟩

/-- C10: for a duplicate-free label list A, transposing the relation
matrix gives the matrix of the inverse relation: transpose applied to
build_matrix(A, pairs) equals build_matrix of A and the pairs with
their components swapped. -/
theorem transpose_inverse_relation : ∀ (A : List String) (pairs : List (String × String)),
    A.Nodup →
    transpose (build_matrix A pairs) = build_matrix A (pairs.map fun p => (p.2, p.1)) := by
  intro A pairs hA
  obtain ⟨hlen, hrows⟩ := build_matrix_shape A pairs
  obtain ⟨hlen2, hrows2⟩ := build_matrix_shape A (pairs.map fun p => (p.2, p.1))
  rcases Nat.eq_zero_or_pos A.length with hzero | hpos
  · have h1 : build_matrix A pairs = [] := List.eq_nil_of_length_eq_zero (by omega)
    have h2 : build_matrix A (pairs.map fun p => (p.2, p.1)) = [] :=
      List.eq_nil_of_length_eq_zero (by omega)
    rw [h1, h2]
    rfl
  · have hM : build_matrix A pairs ≠ [] := by
      rw [← List.length_pos]
      omega
    rw [transpose_uniform _ A.length hM hrows]
    refine List.ext_getElem ?_ ?_
    · rw [List.length_map, List.length_range, hlen2]
    · intro k h1 h2
      have hk : k < A.length := by
        rw [List.length_map, List.length_range] at h1
        exact h1
      rw [List.getElem_map, List.getElem_range]
      refine List.ext_getElem ?_ ?_
      · rw [List.length_map, hlen, hrows2 _ (List.getElem_mem h2)]
      · intro i hi1 hi2
        have hiA : i < A.length := by
          rw [List.length_map, hlen] at hi1
          exact hi1
        rw [List.getElem_map]
        have hL : (build_matrix A pairs)[i].getD k 0 = entry (build_matrix A pairs) i k := by
          rw [entry_eq, List.getD_eq_getElem _ _ (show i < (build_matrix A pairs).length by omega)]
        have hR : (build_matrix A (pairs.map fun p => (p.2, p.1)))[k][i] =
            entry (build_matrix A (pairs.map fun p => (p.2, p.1))) k i := by
          rw [entry_eq,
            List.getD_eq_getElem _ _
              (show k < (build_matrix A (pairs.map fun p => (p.2, p.1))).length by omega),
            List.getD_eq_getElem _ _
              (show i < (build_matrix A (pairs.map fun p => (p.2, p.1)))[k].length by
                rw [hrows2 _ (List.getElem_mem (by omega))]
                exact hiA)]
        rw [hL, hR, build_matrix_entry A hA pairs hiA hk,
          build_matrix_entry A hA (pairs.map fun p => (p.2, p.1)) hk hiA]
        have hcond : ((A[k], A[i]) ∈ pairs.map fun p => (p.2, p.1)) ↔ (A[i], A[k]) ∈ pairs :=
          mem_map_swap
        simp only [hcond]

theorem transpose_inverse_relation_witness :
    transpose (build_matrix ["p", "q"] [("p", "q"), ("q", "q")]) =
      build_matrix ["p", "q"] ([("p", "q"), ("q", "q")].map fun p => (p.2, p.1)) :=
  transpose_inverse_relation ["p", "q"] [("p", "q"), ("q", "q")] (by decide)
